import Mathlib

/-!
Shallow embedding of the batch file-operation engine of
`src/truba_gui/ui/widgets/remote_dir_panel.py`: planned operations, the
worker that executes a plan (`_FileOpWorker.run`), the plan runner
(`_run_plan_with_progress`), the conflict-resolving plan builders
(`_build_copy_move_plan_with_conflicts`, `_apply_local_upload`), the undo
ledger (`_set_last_undo`, `undo_last`, `_apply_copy_move_with_conflicts`)
and the diagnostic persistence (`on_finished` / `_persist_batch_state`).

Remote-backend probes are modelled by boolean-valued oracles (`FEnv`):
the code only ever turns its `exists` / `is_dir` probes (with their
try/except fallbacks) into a single boolean, so the oracle records the
net outcome of each probe.  Dialog interactions (`_resolve_conflict`,
`_prompt_rename`) are modelled by lists of successive user answers,
consumed in order; an exhausted resolver list behaves like the dialog's
fall-through branch, which returns `cancel`.
-/

namespace TrubaPanel

/-- Python `s.rstrip("/")`: drop every trailing `'/'`. -/
def rstripSlash (s : String) : String :=
  ⟨(s.data.reverse.dropWhile (fun c => c = '/')).reverse⟩

/-- Python `os.path.basename`: the part after the last `'/'`
(the whole string when it has no `'/'`). -/
def pyBasename (s : String) : String :=
  ⟨(s.data.reverse.takeWhile (fun c => c ≠ '/')).reverse⟩

/-- Python `os.path.dirname` (posix): the part before the last `'/'`,
with trailing slashes stripped unless the head is all slashes. -/
def pyDirname (s : String) : String :=
  let head : List Char := (s.data.reverse.dropWhile (fun c => c ≠ '/')).reverse
  if head.all (fun c => c = '/') then ⟨head⟩ else rstripSlash ⟨head⟩

/-- `_PlannedOp`: one primitive step of a plan
(`op ∈ copy/move/delete/upload/download/mkdir_remote/mkdir_local/delete_local`). -/
structure PlannedOp where
  op : String
  src : String
  dst : String
  recursive : Bool
deriving DecidableEq, Repr

/-- `_UndoRecord`: kind (only "move" is produced) and the executed
`(src, dst)` pairs. -/
structure UndoRecord where
  kind : String
  moves : List (String × String)
deriving DecidableEq, Repr

/-- Net outcome of the backend probes used while building plans:
`pexists p` is the boolean the code derives from its existence probe
(`files.exists` with its try/except fallbacks) and `pisdir p` the boolean
derived from the directory probe (`files.is_dir`, except ↦ `False`). -/
structure FEnv where
  pexists : String → Bool
  pisdir : String → Bool

/-! ## Batch executor (`_FileOpWorker.run`, lines 144-185) -/

/-- Cooperative cancellation, observed at step boundaries: the flag was
requested after step `k` completed, hence is seen raised before every
step `i` with `k < i`.  `none` means cancellation is never requested. -/
def cancelHit (cancelAfter : Option Nat) (i : Nat) : Bool :=
  match cancelAfter with
  | none => false
  | some k => decide (k < i)

/-- `label = f"{i}/{total}: {os.path.basename((op.dst or op.src).rstrip('/'))}"`. -/
def stepLabel (i total : Nat) (op : PlannedOp) : String :=
  toString i ++ "/" ++ toString total ++ ": " ++
    pyBasename (rstripSlash (if op.dst = "" then op.src else op.dst))

/-- The single `finished` result of one worker run, together with the
trace of steps that completed against the backend and the progress
events emitted (step index, label). -/
structure RunResult where
  executed : List PlannedOp
  progress : List (Nat × String)
  cancelled : Bool
  message : String
deriving DecidableEq, Repr

/-- The loop body of `_FileOpWorker.run`: before step `i` the cancel
flag is checked (emitting `(True, "İptal edildi.")`), then the progress
event is emitted and the step executed; a raising step stops the run
with `(False, label + "\n" + error)`; after the last step the worker
emits `(False, "")`.  `exec op = some e` models the backend primitive
raising with message `e`. -/
def runSteps (exec : PlannedOp → Option String) (cancelAfter : Option Nat)
    (total : Nat) : Nat → List PlannedOp → RunResult
  | _, [] => ⟨[], [], false, ""⟩
  | i, op :: rest =>
    if cancelHit cancelAfter i then ⟨[], [], true, "İptal edildi."⟩
    else
      let label := stepLabel i total op
      match exec op with
      | some e => ⟨[], [(i, label)], false, label ++ "\n" ++ e⟩
      | none =>
        let r := runSteps exec cancelAfter total (i + 1) rest
        ⟨op :: r.executed, (i, label) :: r.progress, r.cancelled, r.message⟩

/-- One full run of `_FileOpWorker.run` over a plan (steps are 1-indexed). -/
def workerRun (exec : PlannedOp → Option String) (cancelAfter : Option Nat)
    (plan : List PlannedOp) : RunResult :=
  runSteps exec cancelAfter plan.length 1 plan

/-! ### Executor lemmas -/

theorem runSteps_all_ok (exec : PlannedOp → Option String) (total : Nat) :
    ∀ (l : List PlannedOp) (i : Nat), (∀ op ∈ l, exec op = none) →
      runSteps exec none total i l =
        ⟨l, (l.enumFrom i).map (fun p => (p.1, stepLabel p.1 total p.2)), false, ""⟩ := by
  intro l
  induction l with
  | nil => intro i _; simp [runSteps]
  | cons op rest ih =>
    intro i h
    have hop : exec op = none := h op (by simp)
    have hrest : ∀ o ∈ rest, exec o = none := fun o ho => h o (by simp [ho])
    simp [runSteps, cancelHit, hop, ih (i + 1) hrest, List.enumFrom_cons]

theorem runSteps_error (exec : PlannedOp → Option String) (total : Nat)
    (bad : PlannedOp) (e : String) (hbad : exec bad = some e) :
    ∀ (A : List PlannedOp) (B : List PlannedOp) (i : Nat),
      (∀ op ∈ A, exec op = none) →
      runSteps exec none total i (A ++ bad :: B) =
        ⟨A, ((A.enumFrom i).map (fun p => (p.1, stepLabel p.1 total p.2))) ++
              [(i + A.length, stepLabel (i + A.length) total bad)],
          false, stepLabel (i + A.length) total bad ++ "\n" ++ e⟩ := by
  intro A
  induction A with
  | nil => intro B i _; simp [runSteps, cancelHit, hbad]
  | cons op rest ih =>
    intro B i h
    have hop : exec op = none := h op (by simp)
    have hrest : ∀ o ∈ rest, exec o = none := fun o ho => h o (by simp [ho])
    have harith : i + (rest.length + 1) = i + 1 + rest.length := by omega
    simp [runSteps, cancelHit, hop, ih B (i + 1) hrest, List.enumFrom_cons, harith]

theorem runSteps_cancel (exec : PlannedOp → Option String) (total k : Nat) :
    ∀ (l : List PlannedOp) (i : Nat), i ≤ k + 1 → k + 1 - i < l.length →
      (∀ op ∈ l.take (k + 1 - i), exec op = none) →
      runSteps exec (some k) total i l =
        ⟨l.take (k + 1 - i),
          ((l.take (k + 1 - i)).enumFrom i).map
            (fun p => (p.1, stepLabel p.1 total p.2)),
          true, "İptal edildi."⟩ := by
  intro l
  induction l with
  | nil => intro i _ hlen _; simp at hlen
  | cons op rest ih =>
    intro i hi hlen h
    by_cases hki : k < i
    · have : k + 1 - i = 0 := by omega
      simp [runSteps, cancelHit, hki, this]
    · have hik : i ≤ k := by omega
      have hcancel : cancelHit (some k) i = false := by
        simp [cancelHit]; omega
      have htk : k + 1 - i = (k + 1 - (i + 1)) + 1 := by omega
      have hop : exec op = none := by
        apply h op; rw [htk]; simp
      have hrest : ∀ o ∈ rest.take (k + 1 - (i + 1)), exec o = none := by
        intro o ho
        apply h o; rw [htk]; simp
        right; simpa [Nat.succ_sub_succ] using ho
      have hlen' : k + 1 - (i + 1) < rest.length := by
        simp at hlen; omega
      simp [runSteps, hcancel, hop, ih (i + 1) (by omega) hlen' hrest, htk,
        List.enumFrom_cons]

/-! ## Plan runner (`_run_plan_with_progress`, lines 939-1018)

An empty plan returns `True` before the queue view is shown and before
any worker is created; otherwise the worker runs the plan and the runner
returns `True` iff the finished message is empty and the run was not
cancelled (`if state["error"]: ... return False; if state["cancelled"]:
return False; return True`). -/

structure PlanRunOut where
  ok : Bool
  queueShown : Bool
  result : Option RunResult
deriving DecidableEq, Repr

def runPlanWithProgress (exec : PlannedOp → Option String)
    (cancelAfter : Option Nat) (plan : List PlannedOp) : PlanRunOut :=
  if plan.isEmpty then ⟨true, false, none⟩
  else
    let r := workerRun exec cancelAfter plan
    ⟨(r.message == "") && !r.cancelled, true, some r⟩

theorem workerRun_all_ok (exec : PlannedOp → Option String)
    (plan : List PlannedOp) (h : ∀ op ∈ plan, exec op = none) :
    workerRun exec none plan =
      ⟨plan, (plan.enumFrom 1).map
        (fun p => (p.1, stepLabel p.1 plan.length p.2)), false, ""⟩ :=
  runSteps_all_ok exec plan.length plan 1 h

theorem workerRun_error (exec : PlannedOp → Option String)
    (A B : List PlannedOp) (bad : PlannedOp) (e : String)
    (hA : ∀ op ∈ A, exec op = none) (hbad : exec bad = some e) :
    workerRun exec none (A ++ bad :: B) =
      ⟨A, ((A.enumFrom 1).map
            (fun p => (p.1, stepLabel p.1 (A ++ bad :: B).length p.2))) ++
          [(1 + A.length, stepLabel (1 + A.length) (A ++ bad :: B).length bad)],
        false, stepLabel (1 + A.length) (A ++ bad :: B).length bad ++ "\n" ++ e⟩ :=
  runSteps_error exec (A ++ bad :: B).length bad e hbad A B 1 hA

theorem workerRun_cancelled (exec : PlannedOp → Option String)
    (plan : List PlannedOp) (k : Nat) (hk : k < plan.length)
    (h : ∀ op ∈ plan.take k, exec op = none) :
    workerRun exec (some k) plan =
      ⟨plan.take k, ((plan.take k).enumFrom 1).map
        (fun p => (p.1, stepLabel p.1 plan.length p.2)), true, "İptal edildi."⟩ := by
  have hs := runSteps_cancel exec plan.length k plan 1 (by omega)
    (by simpa using hk) (by simpa using h)
  simpa using hs

/-- C10: running the empty plan immediately reports success without
creating a worker (`result = none`: no backend call, no progress event)
and without showing the queue view. -/
theorem empty_plan_trivially_succeeds (exec : PlannedOp → Option String)
    (cancelAfter : Option Nat) :
    runPlanWithProgress exec cancelAfter [] =
      { ok := true, queueShown := false, result := none } := rfl

/-- C3: if cancellation is requested after step `k` completes and before
step `k + 1` begins (`cancelAfter = some k`, with step `k + 1` existing
and steps `1..k` succeeding), then exactly the first `k` steps were
executed against the backend and the run reports `cancelled = true`. -/
theorem cancellation_boundary (exec : PlannedOp → Option String)
    (plan : List PlannedOp) (k : Nat) (hk : k < plan.length)
    (h : ∀ op ∈ plan.take k, exec op = none) :
    (workerRun exec (some k) plan).executed = plan.take k ∧
      (workerRun exec (some k) plan).cancelled = true := by
  rw [workerRun_cancelled exec plan k hk h]
  exact ⟨rfl, rfl⟩

/-- Witness for `cancellation_boundary`: a two-step plan cancelled after
its first step executes exactly that first step. -/
theorem cancellation_boundary_witness :
    (workerRun (fun _ => none) (some 1)
        [⟨"copy", "/a", "/t/a", false⟩, ⟨"copy", "/b", "/t/b", false⟩]).executed =
      [⟨"copy", "/a", "/t/a", false⟩] ∧
    (workerRun (fun _ => none) (some 1)
        [⟨"copy", "/a", "/t/a", false⟩, ⟨"copy", "/b", "/t/b", false⟩]).cancelled = true := by
  have h := cancellation_boundary (fun _ => none)
    [⟨"copy", "/a", "/t/a", false⟩, ⟨"copy", "/b", "/t/b", false⟩] 1
    (by decide) (fun op _ => rfl)
  simpa using h

/-- C2 counterexample: when the cancellation flag is observed at a step
boundary the worker reports `cancelled = true` together with the fixed
non-empty message `"İptal edildi."`, not an empty message as claimed. -/
theorem cancel_message_not_empty_cex :
    (workerRun (fun _ => none) (some 0)
        [⟨"copy", "/home/a.txt", "/home/backup/a.txt", false⟩]).cancelled = true ∧
    (workerRun (fun _ => none) (some 0)
        [⟨"copy", "/home/a.txt", "/home/backup/a.txt", false⟩]).message =
      "İptal edildi." ∧
    ("İptal edildi." : String) ≠ "" := by
  refine ⟨by decide, by decide, by decide⟩

/-- C2 (amended): one run yields exactly one finished result; a raising
step stops the run with `cancelled = false` and a message tagged with
that step's label, executing no later step; a cancellation observed at a
step boundary stops with `cancelled = true` and the fixed message
`"İptal edildi."` (not an empty message); full completion yields
`(false, "")`. -/
theorem executor_result_shape (exec : PlannedOp → Option String)
    (plan : List PlannedOp) :
    ((∀ op ∈ plan, exec op = none) →
      workerRun exec none plan =
        ⟨plan, (plan.enumFrom 1).map
          (fun p => (p.1, stepLabel p.1 plan.length p.2)), false, ""⟩) ∧
    (∀ A bad B e, plan = A ++ bad :: B → (∀ op ∈ A, exec op = none) →
      exec bad = some e →
      (workerRun exec none plan).executed = A ∧
      (workerRun exec none plan).cancelled = false ∧
      (workerRun exec none plan).message =
        stepLabel (1 + A.length) plan.length bad ++ "\n" ++ e) ∧
    (∀ k, k < plan.length → (∀ op ∈ plan.take k, exec op = none) →
      (workerRun exec (some k) plan).executed = plan.take k ∧
      (workerRun exec (some k) plan).cancelled = true ∧
      (workerRun exec (some k) plan).message = "İptal edildi.") := by
  refine ⟨workerRun_all_ok exec plan, ?_, ?_⟩
  · intro A bad B e hplan hA hbad
    subst hplan
    rw [workerRun_error exec A B bad e hA hbad]
    exact ⟨rfl, rfl, rfl⟩
  · intro k hk h
    rw [workerRun_cancelled exec plan k hk h]
    exact ⟨rfl, rfl, rfl⟩

/-- Witness for `executor_result_shape`: the three branches at concrete
plans — full success, an error at the second step of a two-step plan,
and cancellation before the only step. -/
theorem executor_result_shape_witness :
    workerRun (fun _ => none) none [⟨"copy", "/x", "/t/x", false⟩] =
      ⟨[⟨"copy", "/x", "/t/x", false⟩], [(1, "1/1: x")], false, ""⟩ ∧
    (workerRun (fun op => if op.src = "/y" then some "boom" else none) none
        [⟨"copy", "/x", "/t/x", false⟩, ⟨"copy", "/y", "/t/y", false⟩]).message =
      "2/2: y\nboom" ∧
    (workerRun (fun _ => none) (some 0) [⟨"move", "/x", "/t/x", false⟩]).message =
      "İptal edildi." := by
  refine ⟨?_, ?_, ?_⟩
  · have h := (executor_result_shape (fun _ => none)
      [⟨"copy", "/x", "/t/x", false⟩]).1 (fun op _ => rfl)
    simpa using h
  · have h := ((executor_result_shape
      (fun op => if op.src = "/y" then some "boom" else none)
      [⟨"copy", "/x", "/t/x", false⟩, ⟨"copy", "/y", "/t/y", false⟩]).2.1)
      [⟨"copy", "/x", "/t/x", false⟩] ⟨"copy", "/y", "/t/y", false⟩ [] "boom"
      rfl (by decide) (by decide)
    rw [h.2.2]; decide
  · have h := ((executor_result_shape (fun _ => none)
      [⟨"move", "/x", "/t/x", false⟩]).2.2) 0 (by decide) (by decide)
    exact h.2.2

/-! ## Conflict resolution (`_resolve_conflict` lines 793-823,
`_prompt_rename` lines 825-832)

`_resolve_conflict` returns one of `overwrite/skip/rename/cancel`,
suffixed with `"_all"` when the apply-to-all checkbox is ticked; its
fall-through branch returns `cancel`.  Successive dialog answers are
modelled by a list of such strings (exhaustion = the fall-through
`cancel`).  `_prompt_rename` answers are modelled by a list of
`Option String` (the stripped non-empty new name, or `none` for a
cancelled/empty prompt; exhaustion = `none`). -/

/-- `_ret` inside `_resolve_conflict`. -/
def resolveRet (clicked : String) (applyAll : Bool) : String :=
  if applyAll then clicked ++ "_all" else clicked

/-- `action.endswith("_all")`. -/
def endsAll (s : String) : Bool :=
  List.isSuffixOf "_all".data s.data

/-- `action.replace("_all", "")` on the strings `_resolve_conflict`
produces (a plain action optionally suffixed once with `"_all"`). -/
def stripAll (s : String) : String :=
  if endsAll s then ⟨s.data.take (s.data.length - 4)⟩ else s

/-- `dst_dir = dest_dir.rstrip("/") or "/"` (line 1097). -/
def dstDirOf (destDir : String) : String :=
  let s := rstripSlash destDir
  if s = "" then "/" else s

/-- `dst = dst_dir.rstrip("/") + "/" + name` (line 1098); the same
formula produces the destination `_prompt_rename` returns. -/
def destFor (destDir name : String) : String :=
  rstripSlash (dstDirOf destDir) ++ "/" ++ name

/-- Outcome of the conflict `while`-loop shared by
`_build_copy_move_plan_with_conflicts` (lines 1111-1148) and
`_apply_local_upload` (lines 1337-1370): the whole build is cancelled,
the item is skipped, or the item proceeds to destination `dst` after
the optional overwrite-delete steps `pre`. -/
inductive ConflictOut where
  | cancelled : ConflictOut
  | skipped (policy : Option String) (resolver : List String)
      (renames : List (Option String)) (calls : Nat) : ConflictOut
  | proceed (pre : List PlannedOp) (dst : String) (policy : Option String)
      (resolver : List String) (renames : List (Option String))
      (calls : Nat) : ConflictOut
deriving DecidableEq, Repr

/-- The conflict loop once the remembered policy is `rename`: each
collision consumes one `_prompt_rename` answer (a `none` answer skips
the item), and a collision-free destination survives. -/
def stickyRenameLoop (env : FEnv) (dstDir : String) :
    List (Option String) → String → Option String × List (Option String)
  | [], dst => if env.pexists dst then (none, []) else (some dst, [])
  | r :: ren, dst =>
    if env.pexists dst then
      match r with
      | none => (none, ren)
      | some nm => stickyRenameLoop env dstDir ren (rstripSlash dstDir ++ "/" ++ nm)
    else (some dst, r :: ren)

/-- The conflict loop while no policy is remembered yet: each collision
consumes the next `_resolve_conflict` answer (`calls` counts these
prompts); an answer suffixed `"_all"` installs the stripped action as
the remembered policy. -/
def resolveLoop (env : FEnv) (dstDir : String) :
    List String → List (Option String) → Nat → String → ConflictOut
  | [], ren, calls, dst =>
    if env.pexists dst then ConflictOut.cancelled
    else ConflictOut.proceed [] dst none [] ren calls
  | action :: res', ren, calls, dst =>
    if env.pexists dst then
      let simple := stripAll action
      let pol : Option String := if endsAll action then some simple else none
      if simple = "cancel" then ConflictOut.cancelled
      else if simple = "skip" then ConflictOut.skipped pol res' ren (calls + 1)
      else if simple = "rename" then
        match ren with
        | [] => ConflictOut.skipped pol res' [] (calls + 1)
        | none :: ren' => ConflictOut.skipped pol res' ren' (calls + 1)
        | some nm :: ren' =>
          if endsAll action then
            match stickyRenameLoop env dstDir ren'
                (rstripSlash dstDir ++ "/" ++ nm) with
            | (none, ren'') => ConflictOut.skipped pol res' ren'' (calls + 1)
            | (some d, ren'') => ConflictOut.proceed [] d pol res' ren'' (calls + 1)
          else resolveLoop env dstDir res' ren' (calls + 1)
            (rstripSlash dstDir ++ "/" ++ nm)
      else if simple = "overwrite" then
        ConflictOut.proceed [⟨"delete", "", dst, env.pisdir dst⟩] dst pol res'
          ren (calls + 1)
      else ConflictOut.proceed [] dst pol res' ren (calls + 1)
    else ConflictOut.proceed [] dst none (action :: res') ren calls

/-- One full conflict loop, dispatching on the remembered policy. -/
def conflictProbe (env : FEnv) (dstDir : String) (policy : Option String)
    (res : List String) (ren : List (Option String)) (calls : Nat)
    (dst : String) : ConflictOut :=
  match policy with
  | none => resolveLoop env dstDir res ren calls dst
  | some a =>
    if a = "rename" then
      match stickyRenameLoop env dstDir ren dst with
      | (none, ren') => ConflictOut.skipped policy res ren' calls
      | (some d, ren') => ConflictOut.proceed [] d policy res ren' calls
    else if env.pexists dst then
      if a = "cancel" then ConflictOut.cancelled
      else if a = "skip" then ConflictOut.skipped policy res ren calls
      else if a = "overwrite" then
        ConflictOut.proceed [⟨"delete", "", dst, env.pisdir dst⟩] dst policy res
          ren calls
      else ConflictOut.proceed [] dst policy res ren calls
    else ConflictOut.proceed [] dst policy res ren calls

/-! ## Plan builder (`_build_copy_move_plan_with_conflicts`, lines 1086-1150) -/

structure BuildOut where
  plan : List PlannedOp
  policy : Option String
  resolver : List String
  renames : List (Option String)
  calls : Nat
deriving DecidableEq, Repr

def buildLoop (env : FEnv) (opk destDir : String) :
    Option String → List String → List (Option String) → Nat →
    List String → Option BuildOut
  | policy, res, ren, calls, [] => some ⟨[], policy, res, ren, calls⟩
  | policy, res, ren, calls, src :: srcs =>
    let srcClean := rstripSlash src
    let name := pyBasename srcClean
    let dst := destFor destDir name
    let recursive := if opk = "copy" then env.pisdir srcClean else false
    match conflictProbe env (dstDirOf destDir) policy res ren calls dst with
    | ConflictOut.cancelled => none
    | ConflictOut.skipped policy' res' ren' calls' =>
      buildLoop env opk destDir policy' res' ren' calls' srcs
    | ConflictOut.proceed pre d policy' res' ren' calls' =>
      (buildLoop env opk destDir policy' res' ren' calls' srcs).map
        (fun out => { out with plan := pre ++ ⟨opk, srcClean, d, recursive⟩ :: out.plan })

/-- `_build_copy_move_plan_with_conflicts(op, src_paths, dest_dir)`;
`none` models the `return None` on a `cancel` answer. -/
def buildCopyMovePlan (env : FEnv) (opk : String) (srcs : List String)
    (destDir : String) (res : List String) (ren : List (Option String)) :
    Option BuildOut :=
  buildLoop env opk destDir none res ren 0 srcs

/-- A backend with no existing paths (no conflicts anywhere). -/
def noConflictEnv : FEnv := ⟨fun _ => false, fun _ => false⟩

/-- Scenario B backend: only `/home/backup/a.txt` exists (as a file). -/
def envScenarioB : FEnv := ⟨fun p => p == "/home/backup/a.txt", fun _ => false⟩

/-- C1: copying `["/home/a.txt"]` into `/home/backup` yields exactly
`[copy("/home/a.txt","/home/backup/a.txt",recursive=false)]` when the
destination does not exist, and exactly
`[delete("","/home/backup/a.txt",false), copy(...)]` — delete
immediately preceding the copy — when it exists and the resolver answers
`overwrite`. -/
theorem copy_plan_scenarios_A_B :
    (buildCopyMovePlan noConflictEnv "copy" ["/home/a.txt"] "/home/backup"
        [] []).map BuildOut.plan =
      some [⟨"copy", "/home/a.txt", "/home/backup/a.txt", false⟩] ∧
    (buildCopyMovePlan envScenarioB "copy" ["/home/a.txt"] "/home/backup"
        ["overwrite"] []).map BuildOut.plan =
      some [⟨"delete", "", "/home/backup/a.txt", false⟩,
            ⟨"copy", "/home/a.txt", "/home/backup/a.txt", false⟩] := by
  constructor <;> decide

/-! ### Sticky ("apply to all") conflict policy -/

theorem conflictProbe_some (env : FEnv) (dstDir : String) (a : String)
    (res : List String) (ren : List (Option String)) (calls : Nat)
    (dst : String) :
    conflictProbe env dstDir (some a) res ren calls dst = ConflictOut.cancelled ∨
    (∃ ren', conflictProbe env dstDir (some a) res ren calls dst =
      ConflictOut.skipped (some a) res ren' calls) ∨
    (∃ pre d ren', conflictProbe env dstDir (some a) res ren calls dst =
      ConflictOut.proceed pre d (some a) res ren' calls) := by
  simp only [conflictProbe]
  by_cases ha : a = "rename"
  · rw [if_pos ha]
    cases h : stickyRenameLoop env dstDir ren dst with
    | mk d? ren' =>
      cases d? with
      | none => exact Or.inr (Or.inl ⟨ren', by simp⟩)
      | some d => exact Or.inr (Or.inr ⟨[], d, ren', by simp⟩)
  · rw [if_neg ha]
    by_cases hex : env.pexists dst = true
    · rw [if_pos hex]
      by_cases hc : a = "cancel"
      · rw [if_pos hc]; exact Or.inl rfl
      · rw [if_neg hc]
        by_cases hs : a = "skip"
        · rw [if_pos hs]; exact Or.inr (Or.inl ⟨ren, rfl⟩)
        · rw [if_neg hs]
          by_cases ho : a = "overwrite"
          · rw [if_pos ho]
            exact Or.inr (Or.inr ⟨[⟨"delete", "", dst, env.pisdir dst⟩], dst, ren, rfl⟩)
          · rw [if_neg ho]; exact Or.inr (Or.inr ⟨[], dst, ren, rfl⟩)
    · rw [if_neg hex]; exact Or.inr (Or.inr ⟨[], dst, ren, rfl⟩)

theorem buildLoop_policy_some (env : FEnv) (opk destDir a : String) :
    ∀ (srcs : List String) (res : List String) (ren : List (Option String))
      (calls : Nat) (out : BuildOut),
      buildLoop env opk destDir (some a) res ren calls srcs = some out →
      out.calls = calls ∧ out.resolver = res ∧ out.policy = some a := by
  intro srcs
  induction srcs with
  | nil =>
    intro res ren calls out h
    simp only [buildLoop, Option.some.injEq] at h
    subst h
    exact ⟨rfl, rfl, rfl⟩
  | cons src srcs ih =>
    intro res ren calls out
    simp only [buildLoop]
    rcases conflictProbe_some env (dstDirOf destDir) a res ren calls
        (destFor destDir (pyBasename (rstripSlash src))) with
      hc | ⟨ren', hc⟩ | ⟨pre, d, ren', hc⟩ <;> simp only [hc]
    · simp
    · exact ih res ren' calls out
    · intro h
      obtain ⟨out', hb, hmap⟩ := Option.map_eq_some'.mp h
      obtain ⟨h1, h2, h3⟩ := ih res ren' calls out' hb
      rw [← hmap]
      exact ⟨h1, h2, h3⟩

/-- The step a non-colliding source contributes
(`plan.append(_PlannedOp(op=op, src=src_clean, dst=dst, recursive=recursive))`). -/
def sourceStep (env : FEnv) (opk destDir src : String) : PlannedOp :=
  ⟨opk, rstripSlash src, destFor destDir (pyBasename (rstripSlash src)),
    if opk = "copy" then env.pisdir (rstripSlash src) else false⟩

/-- Under a remembered `skip` policy each colliding source is omitted
and each collision-free source contributes exactly its step. -/
def skipFiltered (env : FEnv) (opk destDir : String) (srcs : List String) :
    List PlannedOp :=
  srcs.filterMap fun src =>
    if env.pexists (destFor destDir (pyBasename (rstripSlash src))) then none
    else some (sourceStep env opk destDir src)

theorem conflictProbe_skip (env : FEnv) (dstDir : String) (res : List String)
    (ren : List (Option String)) (calls : Nat) (dst : String) :
    conflictProbe env dstDir (some "skip") res ren calls dst =
      if env.pexists dst then ConflictOut.skipped (some "skip") res ren calls
      else ConflictOut.proceed [] dst (some "skip") res ren calls := by
  simp only [conflictProbe, String.reduceEq, reduceIte]

theorem buildLoop_policy_skip (env : FEnv) (opk destDir : String) :
    ∀ (srcs : List String) (res : List String) (ren : List (Option String))
      (calls : Nat),
      buildLoop env opk destDir (some "skip") res ren calls srcs =
        some ⟨skipFiltered env opk destDir srcs, some "skip", res, ren, calls⟩ := by
  intro srcs
  induction srcs with
  | nil => intro res ren calls; simp [buildLoop, skipFiltered]
  | cons src srcs ih =>
    intro res ren calls
    by_cases hex :
        env.pexists (destFor destDir (pyBasename (rstripSlash src))) = true
    · have hp : conflictProbe env (dstDirOf destDir) (some "skip") res ren calls
          (destFor destDir (pyBasename (rstripSlash src))) =
          ConflictOut.skipped (some "skip") res ren calls := by
        rw [conflictProbe_skip, if_pos hex]
      simp only [buildLoop, hp, ih]
      simp [skipFiltered, List.filterMap_cons, hex]
    · have hp : conflictProbe env (dstDirOf destDir) (some "skip") res ren calls
          (destFor destDir (pyBasename (rstripSlash src))) =
          ConflictOut.proceed [] (destFor destDir (pyBasename (rstripSlash src)))
            (some "skip") res ren calls := by
        rw [conflictProbe_skip, if_neg hex]
      simp only [buildLoop, hp, ih]
      simp [skipFiltered, List.filterMap_cons, hex, sourceStep]

/-- C4: once a resolver answer carries `apply_to_all`, the remembered
policy handles every later collision of the same build pass without
another resolver prompt.  (1) From any state with a remembered policy,
the rest of the build consumes no resolver answer and counts no further
call; (2) under a remembered `skip`, every remaining colliding source is
omitted and every collision-free source keeps exactly its step; (3) a
build whose first source collides and is answered `skip_all` makes
exactly one resolver call and auto-skips all remaining collisions. -/
theorem conflict_apply_to_all (env : FEnv) (opk destDir : String) :
    (∀ (a : String) (srcs res : List String) (ren : List (Option String))
        (calls : Nat) (out : BuildOut),
        buildLoop env opk destDir (some a) res ren calls srcs = some out →
        out.calls = calls ∧ out.resolver = res) ∧
    (∀ (srcs res : List String) (ren : List (Option String)) (calls : Nat),
        buildLoop env opk destDir (some "skip") res ren calls srcs =
          some ⟨skipFiltered env opk destDir srcs, some "skip", res, ren, calls⟩) ∧
    (∀ (s : String) (srcs res' : List String) (ren : List (Option String)),
        env.pexists (destFor destDir (pyBasename (rstripSlash s))) = true →
        buildCopyMovePlan env opk (s :: srcs) destDir ("skip_all" :: res') ren =
          some ⟨skipFiltered env opk destDir srcs, some "skip", res', ren, 1⟩) := by
  refine ⟨?_, buildLoop_policy_skip env opk destDir, ?_⟩
  · intro a srcs res ren calls out h
    have := buildLoop_policy_some env opk destDir a srcs res ren calls out h
    exact ⟨this.1, this.2.1⟩
  · intro s srcs res' ren hex
    have h1 : stripAll "skip_all" = "skip" := by decide
    have h2 : endsAll "skip_all" = true := by decide
    have hp : conflictProbe env (dstDirOf destDir) none ("skip_all" :: res') ren 0
        (destFor destDir (pyBasename (rstripSlash s))) =
        ConflictOut.skipped (some "skip") res' ren 1 := by
      simp only [conflictProbe, resolveLoop, hex, if_true, h1, h2,
        String.reduceEq, reduceIte, Nat.reduceAdd, Nat.zero_add]
    simp only [buildCopyMovePlan, buildLoop, hp]
    exact buildLoop_policy_skip env opk destDir srcs res' ren 1

/-- Witness for `conflict_apply_to_all`: destination `/t/a` exists, so
the first source prompts once and is answered `skip_all`; the second
source (`/y/b`, no collision) keeps its step, and the second resolver
answer is never consumed. -/
theorem conflict_apply_to_all_witness :
    buildCopyMovePlan ⟨fun p => p == "/t/a", fun _ => false⟩ "copy"
        ["/x/a", "/y/b"] "/t" ["skip_all", "overwrite"] [] =
      some ⟨[⟨"copy", "/y/b", "/t/b", false⟩], some "skip", ["overwrite"], [], 1⟩ := by
  have h := (conflict_apply_to_all ⟨fun p => p == "/t/a", fun _ => false⟩
    "copy" "/t").2.2 "/x/a" ["/y/b"] ["overwrite"] [] (by decide)
  rw [h]
  decide

/-! ## Undo ledger (`_set_last_undo` lines 493-500, `undo_last` lines
502-579, `_apply_copy_move_with_conflicts` lines 1152-1171)

`RemoteDirPanel._last_undo` is a single class-level `Optional[_UndoRecord]`
slot, so at most one record exists process-wide by construction; the
state is modelled as an `Option UndoRecord` threaded through the
operations that read or replace it. -/

/-- `new_dst` of the rename branch inside `undo_last`:
`dst_dir = os.path.dirname(undo_dst) or "/"`, then
`dst_dir.rstrip("/") + "/" + new_name`. -/
def undoRenameTarget (undoDst nm : String) : String :=
  let d := pyDirname undoDst
  rstripSlash (if d = "" then "/" else d) ++ "/" ++ nm

/-- The pair loop of `undo_last` (lines 520-563): for each `(src, dst)`
of the reversed move list, move `dst` back to `src`, resolving a
conflict at the inverse destination with the same resolver protocol
(single-shot: a rename answer is not re-checked for collision).
`none` models the `return` on a `cancel` answer. -/
def undoBuildLoop (env : FEnv) :
    Option String → List String → List (Option String) →
    List (String × String) → Option (List PlannedOp)
  | _, _, _, [] => some []
  | policy, res, ren, (src, dst) :: rest =>
    let undoSrc := rstripSlash dst
    let undoDst := rstripSlash src
    if env.pexists undoDst then
      match policy, res with
      | none, [] => none
      | none, action :: res' =>
        let simple := stripAll action
        let pol : Option String := if endsAll action then some simple else none
        if simple = "cancel" then none
        else if simple = "skip" then undoBuildLoop env pol res' ren rest
        else if simple = "rename" then
          match ren with
          | [] => undoBuildLoop env pol res' [] rest
          | none :: ren' => undoBuildLoop env pol res' ren' rest
          | some nm :: ren' =>
            (undoBuildLoop env pol res' ren' rest).map
              (fun tail => ⟨"move", undoSrc, undoRenameTarget undoDst nm, false⟩ :: tail)
        else if simple = "overwrite" then
          (undoBuildLoop env pol res' ren rest).map
            (fun tail => ⟨"delete", "", undoDst, env.pisdir undoDst⟩ ::
              ⟨"move", undoSrc, undoDst, false⟩ :: tail)
        else
          (undoBuildLoop env pol res' ren rest).map
            (fun tail => ⟨"move", undoSrc, undoDst, false⟩ :: tail)
      | some a, _ =>
        if a = "cancel" then none
        else if a = "skip" then undoBuildLoop env policy res ren rest
        else if a = "rename" then
          match ren with
          | [] => undoBuildLoop env policy res [] rest
          | none :: ren' => undoBuildLoop env policy res ren' rest
          | some nm :: ren' =>
            (undoBuildLoop env policy res ren' rest).map
              (fun tail => ⟨"move", undoSrc, undoRenameTarget undoDst nm, false⟩ :: tail)
        else if a = "overwrite" then
          (undoBuildLoop env policy res ren rest).map
            (fun tail => ⟨"delete", "", undoDst, env.pisdir undoDst⟩ ::
              ⟨"move", undoSrc, undoDst, false⟩ :: tail)
        else
          (undoBuildLoop env policy res ren rest).map
            (fun tail => ⟨"move", undoSrc, undoDst, false⟩ :: tail)
    else
      (undoBuildLoop env policy res ren rest).map
        (fun tail => ⟨"move", undoSrc, undoDst, false⟩ :: tail)

/-- Result of one `undo_last` invocation: the final ledger slot, the
inverse plan that was built (when the build was not cancelled), and
whether the plan was run. -/
structure UndoOut where
  record : Option UndoRecord
  built : Option (List PlannedOp)
  ran : Bool
deriving DecidableEq, Repr

/-- `undo_last` (lines 502-579): no record is a no-op; a non-move or
empty record is cleared; otherwise the inverse plan is built over the
reversed moves, an empty plan clears the record without running, and a
run clears the record only when it reports success. -/
def undoLast (env : FEnv) (exec : PlannedOp → Option String)
    (cancelAfter : Option Nat) (res : List String) (ren : List (Option String))
    (rec? : Option UndoRecord) : UndoOut :=
  match rec? with
  | none => ⟨none, none, false⟩
  | some rec =>
    if rec.kind ≠ "move" ∨ rec.moves = [] then ⟨none, none, false⟩
    else
      match undoBuildLoop env none res ren rec.moves.reverse with
      | none => ⟨some rec, none, false⟩
      | some plan =>
        if plan = [] then ⟨none, some [], false⟩
        else if (runPlanWithProgress exec cancelAfter plan).ok then
          ⟨none, some plan, true⟩
        else ⟨some rec, some plan, true⟩

theorem undoBuildLoop_noconflict (env : FEnv)
    (henv : ∀ p, env.pexists p = false) (policy : Option String)
    (res : List String) (ren : List (Option String)) :
    ∀ pairs : List (String × String),
      undoBuildLoop env policy res ren pairs =
        some (pairs.map
          (fun sd => ⟨"move", rstripSlash sd.2, rstripSlash sd.1, false⟩)) := by
  intro pairs
  induction pairs with
  | nil => simp [undoBuildLoop]
  | cons sd rest ih =>
    obtain ⟨src, dst⟩ := sd
    simp [undoBuildLoop, henv, ih]

theorem undoLast_noconflict_spec (exec : PlannedOp → Option String)
    (cancelAfter : Option Nat) (res : List String) (ren : List (Option String))
    (rec : UndoRecord) (hkind : rec.kind = "move") (hne : rec.moves ≠ [])
    (hnorm : ∀ sd ∈ rec.moves, rstripSlash sd.1 = sd.1 ∧ rstripSlash sd.2 = sd.2) :
    (undoLast noConflictEnv exec cancelAfter res ren (some rec)).built =
      some (rec.moves.reverse.map (fun sd => ⟨"move", sd.2, sd.1, false⟩)) ∧
    (undoLast noConflictEnv exec cancelAfter res ren (some rec)).record =
      (if (runPlanWithProgress exec cancelAfter
            (rec.moves.reverse.map
              (fun sd => (⟨"move", sd.2, sd.1, false⟩ : PlannedOp)))).ok
       then none else some rec) := by
  have hbuild := undoBuildLoop_noconflict noConflictEnv (fun _ => rfl) none res ren
    rec.moves.reverse
  have hmap : rec.moves.reverse.map
      (fun sd => (⟨"move", rstripSlash sd.2, rstripSlash sd.1, false⟩ : PlannedOp)) =
      rec.moves.reverse.map (fun sd => ⟨"move", sd.2, sd.1, false⟩) := by
    apply List.map_congr_left
    intro sd hsd
    have h := hnorm sd (List.mem_reverse.mp hsd)
    rw [h.1, h.2]
  rw [hmap] at hbuild
  have hcond : ¬(rec.kind ≠ "move" ∨ rec.moves = []) := by
    simp [hkind, hne]
  have hplanne : rec.moves.reverse.map
      (fun sd => (⟨"move", sd.2, sd.1, false⟩ : PlannedOp)) ≠ [] := by
    simp [hne]
  simp only [undoLast, if_neg hcond, hbuild, if_neg hplanne]
  by_cases hok : (runPlanWithProgress exec cancelAfter
      (rec.moves.reverse.map
        (fun sd => (⟨"move", sd.2, sd.1, false⟩ : PlannedOp)))).ok = true
  · rw [List.map_reverse] at hok
    simp [hok]
  · simp only [Bool.not_eq_true] at hok
    rw [List.map_reverse] at hok
    simp [hok]

/-- C5: for a stored move record, undo builds its inverse plan by
visiting the `(sᵢ, dᵢ)` pairs in reverse order (pair `n` first),
emitting for each a `move` step from `dᵢ` back to `sᵢ` (stated for
conflict-free inverse destinations, where no pair is skipped); the
record is cleared exactly when the inverse run succeeds and is left
unchanged on cancel or error. -/
theorem undo_builds_reverse_inverse (exec : PlannedOp → Option String)
    (cancelAfter : Option Nat) (res : List String) (ren : List (Option String))
    (rec : UndoRecord) (hkind : rec.kind = "move") (hne : rec.moves ≠ [])
    (hnorm : ∀ sd ∈ rec.moves, rstripSlash sd.1 = sd.1 ∧ rstripSlash sd.2 = sd.2) :
    (undoLast noConflictEnv exec cancelAfter res ren (some rec)).built =
      some (rec.moves.reverse.map (fun sd => ⟨"move", sd.2, sd.1, false⟩)) ∧
    (undoLast noConflictEnv exec cancelAfter res ren (some rec)).record =
      (if (runPlanWithProgress exec cancelAfter
            (rec.moves.reverse.map
              (fun sd => (⟨"move", sd.2, sd.1, false⟩ : PlannedOp)))).ok
       then none else some rec) :=
  undoLast_noconflict_spec exec cancelAfter res ren rec hkind hne hnorm

/-- Witness for `undo_builds_reverse_inverse`: a one-move record is
undone by the single inverse move and cleared after a successful run. -/
theorem undo_builds_reverse_inverse_witness :
    (undoLast noConflictEnv (fun _ => none) none [] []
        (some ⟨"move", [("/a", "/t/a")]⟩)).built =
      some [⟨"move", "/t/a", "/a", false⟩] ∧
    (undoLast noConflictEnv (fun _ => none) none [] []
        (some ⟨"move", [("/a", "/t/a")]⟩)).record = none := by
  have h := undo_builds_reverse_inverse (fun _ => none) none [] []
    ⟨"move", [("/a", "/t/a")]⟩ rfl (by decide) (by decide)
  refine ⟨by simpa using h.1, ?_⟩
  have h2 := h.2
  simpa using h2

/-- C6 counterexample: for a record with moves `[(a,b), (c,d)]` the
inverse plan attempts `move(d,c)` first and `move(b,a)` second (pairs
are visited in reverse order), so it is not the claimed
`[move(b,a), move(d,c)]`. -/
theorem undo_two_moves_order_cex :
    (undoLast noConflictEnv (fun _ => none) none [] []
        (some ⟨"move", [("/a", "/b"), ("/c", "/d")]⟩)).built =
      some [⟨"move", "/d", "/c", false⟩, ⟨"move", "/b", "/a", false⟩] ∧
    some [(⟨"move", "/d", "/c", false⟩ : PlannedOp), ⟨"move", "/b", "/a", false⟩] ≠
      some [(⟨"move", "/b", "/a", false⟩ : PlannedOp), ⟨"move", "/d", "/c", false⟩] := by
  constructor <;> decide

/-- C6 (amended): for a successfully recorded move batch
`[(a,b), (c,d)]`, undo (with no conflicts at the inverse destinations)
builds the inverse plan `[move(d,c), move(b,a)]` — reverse pair order —
and after the undo run succeeds the ledger holds no record. -/
theorem undo_two_moves_order :
    undoLast noConflictEnv (fun _ => none) none [] []
        (some ⟨"move", [("/a", "/b"), ("/c", "/d")]⟩) =
      ⟨none, some [⟨"move", "/d", "/c", false⟩, ⟨"move", "/b", "/a", false⟩], true⟩ := by
  decide

/-- `moves = [(p.src, p.dst) for p in plan if p.op == "move"]` (line 1169). -/
def movesOf (plan : List PlannedOp) : List (String × String) :=
  plan.filterMap (fun p => if p.op = "move" then some (p.src, p.dst) else none)

/-- `_apply_copy_move_with_conflicts` (lines 1152-1171) as a transition
on the ledger slot: a cancelled build, a failed run, a copy batch, or a
move batch without move steps leaves the previous record; a successful
move batch with at least one move step stores those `(src, dst)` pairs,
replacing the previous record. -/
def applyCopyMove (env : FEnv) (exec : PlannedOp → Option String)
    (cancelAfter : Option Nat) (res : List String) (ren : List (Option String))
    (opk : String) (srcs : List String) (destDir : String)
    (prev : Option UndoRecord) : Option UndoRecord :=
  match buildCopyMovePlan env opk srcs destDir res ren with
  | none => prev
  | some out =>
    if (runPlanWithProgress exec cancelAfter out.plan).ok then
      if opk = "move" then
        if movesOf out.plan = [] then prev else some ⟨"move", movesOf out.plan⟩
      else prev
    else prev

/-- C7: the ledger is a single `Option` slot, so at most one record
exists at a time. A batch leaves the slot unchanged unless it is a
successful move batch whose plan holds at least one move step, in which
case the stored record is determined by that batch alone — identical for
every previous slot value (replaced, never stacked) — and a copy batch
never stores. A second move batch that stores `r₂` (when started on the
empty slot) yields the slot `some r₂` over any previous batch's record,
and undoing then builds the inverse of `r₂`'s moves only. -/
theorem single_undo_record (env : FEnv) (exec : PlannedOp → Option String)
    (cancelAfter : Option Nat) (res : List String) (ren : List (Option String))
    (srcs : List String) (destDir : String) :
    (∀ prev, applyCopyMove env exec cancelAfter res ren "copy" srcs destDir
      prev = prev) ∧
    (∀ opk prev,
      applyCopyMove env exec cancelAfter res ren opk srcs destDir prev = prev ∨
      ∃ mv, mv ≠ [] ∧
        applyCopyMove env exec cancelAfter res ren opk srcs destDir prev =
          some ⟨"move", mv⟩ ∧
        ∀ prev', applyCopyMove env exec cancelAfter res ren opk srcs destDir
          prev' = some ⟨"move", mv⟩) ∧
    (∀ r₂, applyCopyMove env exec cancelAfter res ren "move" srcs destDir
        none = some r₂ →
      (∀ prev, applyCopyMove env exec cancelAfter res ren "move" srcs destDir
        prev = some r₂) ∧
      r₂.kind = "move" ∧ r₂.moves ≠ [] ∧
      (∀ (exec' : PlannedOp → Option String) (ca' : Option Nat)
          (res' : List String) (ren' : List (Option String)),
        (∀ sd ∈ r₂.moves, rstripSlash sd.1 = sd.1 ∧ rstripSlash sd.2 = sd.2) →
        (undoLast noConflictEnv exec' ca' res' ren' (some r₂)).built =
          some (r₂.moves.reverse.map (fun sd => ⟨"move", sd.2, sd.1, false⟩)))) := by
  have hgen : ∀ opk prev,
      applyCopyMove env exec cancelAfter res ren opk srcs destDir prev = prev ∨
      ∃ mv, mv ≠ [] ∧
        applyCopyMove env exec cancelAfter res ren opk srcs destDir prev =
          some ⟨"move", mv⟩ ∧
        ∀ prev', applyCopyMove env exec cancelAfter res ren opk srcs destDir
          prev' = some ⟨"move", mv⟩ := by
    intro opk prev
    cases hb : buildCopyMovePlan env opk srcs destDir res ren with
    | none => left; simp [applyCopyMove, hb]
    | some out =>
      by_cases hok : (runPlanWithProgress exec cancelAfter out.plan).ok = true
      · by_cases hm : opk = "move"
        · subst hm
          by_cases hmv : movesOf out.plan = []
          · left; simp [applyCopyMove, hb, hok, hmv]
          · right
            exact ⟨movesOf out.plan, hmv,
              by simp [applyCopyMove, hb, hok, hmv],
              fun prev' => by simp [applyCopyMove, hb, hok, hmv]⟩
        · left; simp [applyCopyMove, hb, hok, hm]
      · left; simp [applyCopyMove, hb, hok]
  refine ⟨?_, hgen, ?_⟩
  · intro prev
    cases hb : buildCopyMovePlan env "copy" srcs destDir res ren with
    | none => simp [applyCopyMove, hb]
    | some out => simp [applyCopyMove, hb]
  · intro r₂ h2
    rcases hgen "move" none with hid | ⟨mv, hmv, heq, hall⟩
    · rw [hid] at h2; exact absurd h2 (by simp)
    · rw [heq] at h2
      have hr : r₂ = ⟨"move", mv⟩ := by
        injection h2 with h2'; exact h2'.symm
      subst hr
      refine ⟨hall, rfl, hmv, ?_⟩
      intro exec' ca' res' ren' hnorm
      exact (undoLast_noconflict_spec exec' ca' res' ren' ⟨"move", mv⟩ rfl hmv
        hnorm).1

/-- Witness for `single_undo_record`: a successful move of `/a` into
`/t` replaces the previous record by `{move, [("/a","/t/a")]}`, while a
copy batch leaves the previous record untouched. -/
theorem single_undo_record_witness :
    applyCopyMove noConflictEnv (fun _ => none) none [] [] "move" ["/a"] "/t"
        (some ⟨"move", [("/old", "/older")]⟩) =
      some ⟨"move", [("/a", "/t/a")]⟩ ∧
    applyCopyMove noConflictEnv (fun _ => none) none [] [] "copy" ["/a"] "/t"
        (some ⟨"move", [("/old", "/older")]⟩) =
      some ⟨"move", [("/old", "/older")]⟩ := by
  have h := single_undo_record noConflictEnv (fun _ => none) none [] [] ["/a"] "/t"
  constructor
  · exact (h.2.2 ⟨"move", [("/a", "/t/a")]⟩ (by decide)).1
      (some ⟨"move", [("/old", "/older")]⟩)
  · exact h.1 (some ⟨"move", [("/old", "/older")]⟩)

/-! ## Diagnostic snapshot (`on_finished` lines 976-999,
`_persist_batch_state` lines 1056-1083; the later duplicate definitions
in the class body override the earlier ones at lines 883-936, so the
effective payload is `{ts, title, remaining}`) -/

structure Snapshot where
  ts : Nat
  title : String
  remaining : List PlannedOp
deriving DecidableEq, Repr

/-- The persistence decision of `on_finished`: `_active_step` is the
step index sent with the last progress event (`0` when none was
emitted); since the worker emits progress events `1, 2, ...` in order,
that index equals `r.progress.length`.  A snapshot
`{ts, title, remaining}` with `remaining = plan[max(0, active_step-1):]`
is written only when the run was cancelled and the plan and the
remaining suffix are non-empty. -/
def onFinishedPersist (now : Nat) (title : String) (plan : List PlannedOp)
    (r : RunResult) : Option Snapshot :=
  let activeStep := r.progress.length
  if r.cancelled ∧ plan ≠ [] then
    let remaining := plan.drop (activeStep - 1)
    if remaining = [] then none else some ⟨now, title, remaining⟩
  else none

/-- C9 counterexample: a run stopped by a step error writes no snapshot
at all (only cancellation persists one), and the snapshot written after
cancelling a two-step plan past its first step lists both steps — the
already-executed first step included — not exactly the not-yet-executed
ones. -/
theorem diagnostics_on_stop_cex :
    (onFinishedPersist 7 "batch" [⟨"copy", "/a", "/b", false⟩]
        (workerRun (fun _ => some "boom") none [⟨"copy", "/a", "/b", false⟩]) =
      none ∧
     (workerRun (fun _ => some "boom") none
        [⟨"copy", "/a", "/b", false⟩]).cancelled = false ∧
     (workerRun (fun _ => some "boom") none
        [⟨"copy", "/a", "/b", false⟩]).message ≠ "") ∧
    (onFinishedPersist 7 "batch"
        [⟨"copy", "/a", "/b", false⟩, ⟨"copy", "/c", "/d", false⟩]
        (workerRun (fun _ => none) (some 1)
          [⟨"copy", "/a", "/b", false⟩, ⟨"copy", "/c", "/d", false⟩]) =
      some ⟨7, "batch",
        [⟨"copy", "/a", "/b", false⟩, ⟨"copy", "/c", "/d", false⟩]⟩ ∧
     (workerRun (fun _ => none) (some 1)
        [⟨"copy", "/a", "/b", false⟩, ⟨"copy", "/c", "/d", false⟩]).executed =
      [⟨"copy", "/a", "/b", false⟩]) := by
  refine ⟨⟨?_, ?_, ?_⟩, ?_, ?_⟩ <;> decide

/-- C9 (amended): the snapshot `{ts, title, remaining}` is written only
on cancellation — a step error writes none — and on a cancellation after
`k` completed steps `remaining = plan[max(0, k-1):]`, which includes the
most recently executed step when `k ≥ 1` rather than exactly the
not-yet-executed steps. -/
theorem diagnostics_on_stop (now : Nat) (title : String)
    (plan : List PlannedOp) :
    (∀ r : RunResult, r.cancelled = false →
      onFinishedPersist now title plan r = none) ∧
    (∀ (exec : PlannedOp → Option String) (k : Nat), k < plan.length →
      (∀ op ∈ plan.take k, exec op = none) →
      onFinishedPersist now title plan (workerRun exec (some k) plan) =
        some ⟨now, title, plan.drop (k - 1)⟩) := by
  constructor
  · intro r hr
    simp [onFinishedPersist, hr]
  · intro exec k hk h
    rw [workerRun_cancelled exec plan k hk h]
    have hlen : (((plan.take k).enumFrom 1).map
        (fun p => (p.1, stepLabel p.1 plan.length p.2))).length = k := by
      simp [List.length_take]
      omega
    have hne : plan ≠ [] := by
      intro hnil
      rw [hnil] at hk
      simp at hk
    have hdropne : plan.drop (k - 1) ≠ [] := by
      intro hd
      have := List.drop_eq_nil_iff.mp hd
      omega
    simp only [onFinishedPersist, hlen]
    rw [if_pos ⟨trivial, hne⟩, if_neg hdropne]

/-- Witness for `diagnostics_on_stop`: no snapshot for an error-stopped
one-step run; cancelling a two-step plan after step 1 persists the
suffix from index 0 (both steps). -/
theorem diagnostics_on_stop_witness :
    onFinishedPersist 3 "t" [⟨"move", "/a", "/b", false⟩]
        (workerRun (fun _ => some "x") none [⟨"move", "/a", "/b", false⟩]) =
      none ∧
    onFinishedPersist 3 "t"
        [⟨"move", "/a", "/b", false⟩, ⟨"move", "/c", "/d", false⟩]
        (workerRun (fun _ => none) (some 1)
          [⟨"move", "/a", "/b", false⟩, ⟨"move", "/c", "/d", false⟩]) =
      some ⟨3, "t", [⟨"move", "/a", "/b", false⟩, ⟨"move", "/c", "/d", false⟩]⟩ := by
  constructor
  · exact (diagnostics_on_stop 3 "t" [⟨"move", "/a", "/b", false⟩]).1
      (workerRun (fun _ => some "x") none [⟨"move", "/a", "/b", false⟩])
      (by decide)
  · have h := (diagnostics_on_stop 3 "t"
      [⟨"move", "/a", "/b", false⟩, ⟨"move", "/c", "/d", false⟩]).2
      (fun _ => none) 1 (by decide) (fun op _ => rfl)
    simpa using h

/-! ## Recursive local upload (`_apply_local_upload`, lines 1317-1408)

The local tree dropped onto the panel is modelled as an `LNode` tree
(directory listings in the order `os.walk` reports them); `os.walk`
walks top-down, so for each directory the code first appends one
`mkdir_remote` per subdirectory, then the file steps (optional
best-effort overwrite `delete` + `upload`), and then descends into the
subdirectories in order. -/

inductive LNode where
  | file (name : String)
  | dir (name : String) (children : List LNode)
deriving Repr

def nameOf : LNode → String
  | .file n => n
  | .dir n _ => n

/-- The steps of one `os.walk` tuple rooted at `(lroot, rroot)`:
`mkdir_remote` for every subdirectory, then for every file an optional
overwrite `delete` (when the remote file exists) followed by its
`upload` (lines 1384-1400). -/
def tupleSteps (env : FEnv) (lroot rroot : String) (cs : List LNode) :
    List PlannedOp :=
  (cs.filterMap fun c => match c with
    | .dir n _ => some ⟨"mkdir_remote", "", rroot ++ "/" ++ n, false⟩
    | .file _ => none)
  ++ (cs.flatMap fun c => match c with
    | .file n =>
      (if env.pexists (rroot ++ "/" ++ n) then
        [⟨"delete", "", rroot ++ "/" ++ n, env.pisdir (rroot ++ "/" ++ n)⟩]
      else [])
      ++ [⟨"upload", lroot ++ "/" ++ n, rroot ++ "/" ++ n, false⟩]
    | .dir _ _ => [])

mutual

def walkChildren (env : FEnv) (lroot rroot : String) :
    List LNode → List PlannedOp
  | [] => []
  | c :: cs => nodeWalk env lroot rroot c ++ walkChildren env lroot rroot cs

def nodeWalk (env : FEnv) (lroot rroot : String) : LNode → List PlannedOp
  | .file _ => []
  | .dir n cs =>
    tupleSteps env (lroot ++ "/" ++ n) (rroot ++ "/" ++ n) cs ++
      walkChildren env (lroot ++ "/" ++ n) (rroot ++ "/" ++ n) cs

end

/-- All steps below a directory rooted at `(lroot, rroot)` in `os.walk`
order: its own tuple, then the recursive tuples of each subdirectory. -/
def dirBody (env : FEnv) (lroot rroot : String) (cs : List LNode) :
    List PlannedOp :=
  tupleSteps env lroot rroot cs ++ walkChildren env lroot rroot cs

theorem nodeWalk_dir (env : FEnv) (lroot rroot n : String) (cs : List LNode) :
    nodeWalk env lroot rroot (LNode.dir n cs) =
      dirBody env (lroot ++ "/" ++ n) (rroot ++ "/" ++ n) cs := rfl

mutual

/-- The remote paths of all directories of the tree below `rroot`. -/
def dirPathsUnder (rroot : String) : List LNode → List String
  | [] => []
  | c :: cs => nodeDirPaths rroot c ++ dirPathsUnder rroot cs

def nodeDirPaths (rroot : String) : LNode → List String
  | .file _ => []
  | .dir n cs => (rroot ++ "/" ++ n) :: dirPathsUnder (rroot ++ "/" ++ n) cs

end

/-- A real filesystem name: non-empty and without `'/'`. -/
def okName (n : String) : Bool :=
  !n.data.isEmpty && n.data.all (fun c => c ≠ '/')

mutual

/-- A tree as a real local filesystem produces it: every name is a real
name and sibling names are distinct. -/
def validNode : LNode → Bool
  | .file n => okName n
  | .dir n cs => okName n && validList cs

def validList : List LNode → Bool
  | [] => true
  | c :: cs =>
    validNode c && !((cs.map nameOf).contains (nameOf c)) && validList cs

end

/-- `dest_dir = (dest_dir or "/").strip()`, prefix `"/"` when missing,
`rstrip("/") or "/"` (lines 1322-1325). -/
def normalizeDest (d : String) : String :=
  let s := ⟨((if d = "" then "/" else d).data.dropWhile Char.isWhitespace).reverse.dropWhile
    Char.isWhitespace |>.reverse⟩
  let s2 : String := if s.data.head? = some '/' then s else "/" ++ s
  let s3 := rstripSlash s2
  if s3 = "" then "/" else s3

/-- `_apply_local_upload` over the dropped roots: each root `lp` is a
local file (`none`) or a directory with children (`some cs`); the
conflict loop on `rp_base` is the same protocol as the copy/move
builder (lines 1337-1370), then a file uploads directly and a directory
contributes `mkdir_remote rp_base` followed by its `os.walk` steps
(lines 1375-1400).  `none` models the `return False` on a `cancel`
answer. -/
def uploadRoots (env : FEnv) (destDir : String) :
    Option String → List String → List (Option String) →
    List (String × Option (List LNode)) → Option (List PlannedOp)
  | _, _, _, [] => some []
  | policy, res, ren, (lp, kind) :: roots =>
    let name := pyBasename (rstripSlash lp)
    let rpBase := rstripSlash (normalizeDest destDir) ++ "/" ++ name
    match conflictProbe env (normalizeDest destDir) policy res ren 0 rpBase with
    | ConflictOut.cancelled => none
    | ConflictOut.skipped policy' res' ren' _ =>
      uploadRoots env destDir policy' res' ren' roots
    | ConflictOut.proceed pre rb policy' res' ren' _ =>
      (uploadRoots env destDir policy' res' ren' roots).map
        (fun tail =>
          pre ++ (match kind with
            | none => [⟨"upload", lp, rb, false⟩]
            | some cs => ⟨"mkdir_remote", "", rb, false⟩ :: dirBody env lp rb cs)
            ++ tail)

/-- The `mkdir_remote` step that creates remote directory `p`. -/
def mkdirStep (p : String) : PlannedOp := ⟨"mkdir_remote", "", p, false⟩

/-- `q` lies strictly inside directory `p`: `p ++ "/"` is a prefix of `q`. -/
def isInside (pD q : String) : Prop := pD.data ++ ['/'] <+: q.data

instance instDecidableIsInside (pD q : String) : Decidable (isInside pD q) :=
  decidable_of_iff ((pD.data ++ ['/']).isPrefixOf q.data = true)
    List.isPrefixOf_iff_prefix

/-- Every step whose destination lies strictly inside `pD` comes after
the `mkdir_remote` step for `pD`: scanning the plan, no step before the
first `mkdir_remote pD` is inside `pD`. -/
def guardedB (pD : String) : List PlannedOp → Bool
  | [] => true
  | op :: rest =>
    if op = mkdirStep pD then true
    else decide (¬ isInside pD op.dst) && guardedB pD rest

/-! ### Path separation lemmas

Destinations are built by `"/"`-concatenation from real filesystem
names (no `'/'` inside a name), so distinct sibling subtrees have
disjoint path sets; these lemmas capture that on the character lists. -/

theorem data_append (s t : String) : (s ++ t).data = s.data ++ t.data := rfl

theorem data_slash : ("/" : String).data = ['/'] := rfl

theorem data_join (r n : String) :
    (r ++ "/" ++ n).data = r.data ++ '/' :: n.data := by
  simp [data_append, data_slash]

theorem seg_eq_of_startsWith :
    ∀ (a b u v : List Char), '/' ∉ a → '/' ∉ b →
      (a ++ '/' :: u) <+: (b ++ '/' :: v) → a = b ∧ u <+: v := by
  intro a
  induction a with
  | nil =>
    intro b u v _ hb h
    cases b with
    | nil =>
      simp only [List.nil_append] at h ⊢
      exact ⟨by trivial, (List.cons_prefix_cons.mp h).2⟩
    | cons c b' =>
      simp only [List.nil_append, List.cons_append] at h
      have hc := (List.cons_prefix_cons.mp h).1
      exact absurd (by simp [← hc]) hb
  | cons c a' ih =>
    intro b u v ha hb h
    cases b with
    | nil =>
      simp only [List.cons_append, List.nil_append] at h
      have hc := (List.cons_prefix_cons.mp h).1
      exact absurd (by simp [hc]) ha
    | cons c' b' =>
      simp only [List.cons_append] at h
      obtain ⟨hc, h'⟩ := List.cons_prefix_cons.mp h
      have ha' : '/' ∉ a' := fun hm => ha (by simp [hm])
      have hb' : '/' ∉ b' := fun hm => hb (by simp [hm])
      obtain ⟨hab, huv⟩ := ih b' u v ha' hb' h'
      exact ⟨by rw [hc, hab], huv⟩

/-- A path below a child of `r` is never inside-or-equal shallow enough
to reach a child-level destination `r ++ "/" ++ m` with `m` a real name. -/
theorem not_inside_child_level (r n τ m : List Char) (hm : '/' ∉ m) :
    ¬ ((r ++ '/' :: (n ++ τ)) ++ ['/'] <+: r ++ '/' :: m) := by
  intro h
  have h' : (r ++ ['/']) ++ (n ++ τ ++ ['/']) <+: (r ++ ['/']) ++ m := by
    simpa [List.append_assoc] using h
  have h2 := (List.prefix_append_right_inj (r ++ ['/'])).mp h'
  have : '/' ∈ m := h2.subset (by simp)
  exact hm this

/-- Paths below the sibling named `n` never lie inside the subtree of a
different sibling named `m`. -/
theorem not_inside_other_sibling (r n τ m w : List Char)
    (hn : '/' ∉ n) (hm : '/' ∉ m) (hnm : n ≠ m)
    (hτ : τ = [] ∨ ∃ τ', τ = '/' :: τ') :
    ¬ ((r ++ '/' :: (n ++ τ)) ++ ['/'] <+: r ++ '/' :: (m ++ '/' :: w)) := by
  intro h
  have h' : (r ++ ['/']) ++ (n ++ (τ ++ ['/'])) <+:
      (r ++ ['/']) ++ (m ++ '/' :: w) := by
    simpa [List.append_assoc] using h
  have h2 := (List.prefix_append_right_inj (r ++ ['/'])).mp h'
  rcases hτ with hτ | ⟨τ', hτ⟩
  · subst hτ
    simp only [List.nil_append] at h2
    have : n ++ '/' :: [] <+: m ++ '/' :: w := by simpa using h2
    exact hnm (seg_eq_of_startsWith n m [] w hn hm this).1
  · subst hτ
    have : n ++ '/' :: (τ' ++ ['/']) <+: m ++ '/' :: w := by
      simpa using h2
    exact hnm (seg_eq_of_startsWith n m (τ' ++ ['/']) w hn hm this).1

/-- A strictly longer path is never inside a shorter-or-equal one. -/
theorem not_inside_of_le_length (pD q : String)
    (h : q.data.length ≤ pD.data.length) : ¬ isInside pD q := by
  intro hin
  have h2 := hin.length_le
  rw [List.length_append, List.length_singleton] at h2
  omega

/-! ### `guardedB` toolkit -/

theorem guardedB_of_all_safe (pD : String) :
    ∀ (X : List PlannedOp),
      (∀ a ∈ X, a = mkdirStep pD ∨ ¬ isInside pD a.dst) →
      guardedB pD X = true := by
  intro X
  induction X with
  | nil => intro _; rfl
  | cons op rest ih =>
    intro h
    by_cases hop : op = mkdirStep pD
    · simp [guardedB, hop]
    · rcases h op (by simp) with h1 | h1
      · exact absurd h1 hop
      · simp [guardedB, hop, h1, ih (fun a ha => h a (by simp [ha]))]

theorem guardedB_append_of_safe (pD : String) :
    ∀ (A B : List PlannedOp),
      (∀ a ∈ A, ¬ isInside pD a.dst) → guardedB pD B = true →
      guardedB pD (A ++ B) = true := by
  intro A
  induction A with
  | nil => intro B _ hB; simpa using hB
  | cons op rest ih =>
    intro B h hB
    by_cases hop : op = mkdirStep pD
    · simp [guardedB, hop]
    · simp [guardedB, hop, h op (by simp),
        ih B (fun a ha => h a (by simp [ha])) hB]

theorem guardedB_append_right (pD : String) :
    ∀ (X : List PlannedOp), guardedB pD X = true → mkdirStep pD ∈ X →
      ∀ B, guardedB pD (X ++ B) = true := by
  intro X
  induction X with
  | nil => intro _ hmem; simp at hmem
  | cons op rest ih =>
    intro hX hmem B
    by_cases hop : op = mkdirStep pD
    · simp [guardedB, hop]
    · simp only [guardedB, if_neg hop, Bool.and_eq_true, decide_eq_true_eq] at hX
      have hmem' : mkdirStep pD ∈ rest := by
        rcases List.mem_cons.mp hmem with h | h
        · exact absurd h.symm hop
        · exact h
      simp [guardedB, hop, hX.1, ih hX.2 hmem' B]

/-! ### Validity facts -/

theorem okName_no_slash (n : String) (h : okName n = true) : '/' ∉ n.data := by
  simp only [okName, Bool.and_eq_true, List.all_eq_true] at h
  intro hm
  have := h.2 '/' hm
  simp at this

theorem validNode_dir (n : String) (cs : List LNode)
    (h : validNode (LNode.dir n cs) = true) :
    okName n = true ∧ validList cs = true := by
  simpa [validNode] using h

theorem validNode_okName (c : LNode) (h : validNode c = true) :
    okName (nameOf c) = true := by
  cases c with
  | file n => simpa [validNode, nameOf] using h
  | dir n cs => exact (validNode_dir n cs h).1

theorem validList_cons_iff (c : LNode) (cs : List LNode) :
    validList (c :: cs) = true ↔
      validNode c = true ∧ nameOf c ∉ cs.map nameOf ∧ validList cs = true := by
  simp [validList, and_assoc]

theorem validList_mem (cs : List LNode) (h : validList cs = true) :
    ∀ c ∈ cs, validNode c = true := by
  induction cs with
  | nil => intro c hc; simp at hc
  | cons c' cs ih =>
    intro c hc
    obtain ⟨h1, _, h3⟩ := (validList_cons_iff c' cs).mp h
    rcases List.mem_cons.mp hc with rfl | hc'
    · exact h1
    · exact ih h3 c hc'

theorem validList_names_nodup (cs : List LNode) (h : validList cs = true) :
    (cs.map nameOf).Nodup := by
  induction cs with
  | nil => simp
  | cons c cs ih =>
    obtain ⟨_, h2, h3⟩ := (validList_cons_iff c cs).mp h
    simp only [List.map_cons, List.nodup_cons]
    exact ⟨h2, ih h3⟩

/-! ### Membership and shape lemmas for the walk -/

theorem mem_tupleSteps (env : FEnv) (lroot rroot : String) (cs : List LNode)
    (op : PlannedOp) (hop : op ∈ tupleSteps env lroot rroot cs) :
    ∃ c ∈ cs, op.dst.data = rroot.data ++ '/' :: (nameOf c).data := by
  unfold tupleSteps at hop
  rcases List.mem_append.mp hop with h | h
  · obtain ⟨c, hc, hmk⟩ := List.mem_filterMap.mp h
    cases c with
    | file n => simp at hmk
    | dir n cs' =>
      simp only [Option.some.injEq] at hmk
      exact ⟨LNode.dir n cs', hc, by rw [← hmk]; simp [nameOf, data_join]⟩
  · obtain ⟨c, hc, hmem⟩ := List.mem_flatMap.mp h
    cases c with
    | dir n cs' => simp at hmem
    | file n =>
      refine ⟨LNode.file n, hc, ?_⟩
      rcases List.mem_append.mp hmem with h2 | h2
      · by_cases hex : env.pexists (rroot ++ "/" ++ n) = true
        · rw [if_pos hex] at h2
          simp only [List.mem_singleton] at h2
          rw [h2]
          simp [nameOf, data_join]
        · rw [if_neg hex] at h2
          simp at h2
      · simp only [List.mem_singleton] at h2
        rw [h2]
        simp [nameOf, data_join]

theorem mkdirStep_mem_tupleSteps (env : FEnv) (lroot rroot n : String)
    (cs' : List LNode) (cs : List LNode) (h : LNode.dir n cs' ∈ cs) :
    mkdirStep (rroot ++ "/" ++ n) ∈ tupleSteps env lroot rroot cs := by
  unfold tupleSteps mkdirStep
  apply List.mem_append_left
  exact List.mem_filterMap.mpr ⟨LNode.dir n cs', h, rfl⟩

theorem walkChildren_append (env : FEnv) (lroot rroot : String) :
    ∀ (A B : List LNode),
      walkChildren env lroot rroot (A ++ B) =
        walkChildren env lroot rroot A ++ walkChildren env lroot rroot B := by
  intro A
  induction A with
  | nil => intro B; simp [walkChildren]
  | cons c cs ih => intro B; simp [walkChildren, ih, List.append_assoc]

theorem sizeOf_list_pos (cs : List LNode) : 0 < sizeOf cs := by
  cases cs <;> simp_arith

theorem sizeOf_children_lt_of_mem (n : String) (cs' cs : List LNode)
    (h : LNode.dir n cs' ∈ cs) : sizeOf cs' < sizeOf cs := by
  have h1 := List.sizeOf_lt_of_mem h
  have h2 : sizeOf cs' < sizeOf (LNode.dir n cs') := by
    simp_arith
  omega

theorem dirPaths_mem_cases (cs : List LNode) (rroot pD : String)
    (h : pD ∈ dirPathsUnder rroot cs) :
    ∃ (n : String) (cs' : List LNode), LNode.dir n cs' ∈ cs ∧
      (pD = rroot ++ "/" ++ n ∨ pD ∈ dirPathsUnder (rroot ++ "/" ++ n) cs') := by
  induction cs with
  | nil => simp [dirPathsUnder] at h
  | cons c rest ih =>
    rw [show dirPathsUnder rroot (c :: rest) =
        nodeDirPaths rroot c ++ dirPathsUnder rroot rest from rfl] at h
    rcases List.mem_append.mp h with h1 | h1
    · cases c with
      | file n => simp [nodeDirPaths] at h1
      | dir n cs' =>
        rw [show nodeDirPaths rroot (LNode.dir n cs') =
            (rroot ++ "/" ++ n) :: dirPathsUnder (rroot ++ "/" ++ n) cs'
          from rfl] at h1
        rcases List.mem_cons.mp h1 with h2 | h2
        · exact ⟨n, cs', by simp, Or.inl h2⟩
        · exact ⟨n, cs', by simp, Or.inr h2⟩
    · obtain ⟨n, cs', hmem, hc⟩ := ih h1
      exact ⟨n, cs', by simp [hmem], hc⟩

theorem dirPaths_shape :
    ∀ (N : Nat) (cs : List LNode), sizeOf cs ≤ N → ∀ (rroot pD : String),
      pD ∈ dirPathsUnder rroot cs →
      ∃ (n : String) (cs' : List LNode), LNode.dir n cs' ∈ cs ∧
        ∃ τ, pD.data = rroot.data ++ '/' :: (n.data ++ τ) ∧
          (τ = [] ∨ ∃ τ', τ = '/' :: τ') := by
  intro N
  induction N with
  | zero =>
    intro cs h
    exact absurd h (by have := sizeOf_list_pos cs; omega)
  | succ N ih =>
    intro cs hcs rroot pD hpD
    obtain ⟨n, cs', hmem, hc⟩ := dirPaths_mem_cases cs rroot pD hpD
    rcases hc with rfl | h2
    · exact ⟨n, cs', hmem, [], by simp [data_join], Or.inl rfl⟩
    · have hsz : sizeOf cs' ≤ N := by
        have := sizeOf_children_lt_of_mem n cs' cs hmem
        omega
      obtain ⟨m, cs'', _, τ₀, hdata, _⟩ := ih cs' hsz (rroot ++ "/" ++ n) pD h2
      refine ⟨n, cs', hmem, '/' :: (m.data ++ τ₀), ?_, Or.inr ⟨_, rfl⟩⟩
      rw [hdata, data_join]
      simp

theorem walkChildren_loc :
    ∀ (N : Nat) (cs : List LNode), sizeOf cs ≤ N →
      ∀ (env : FEnv) (lroot rroot : String) (op : PlannedOp),
        op ∈ walkChildren env lroot rroot cs →
        ∃ (n : String) (cs' : List LNode), LNode.dir n cs' ∈ cs ∧
          ∃ w, op.dst.data = rroot.data ++ '/' :: (n.data ++ '/' :: w) := by
  intro N
  induction N with
  | zero =>
    intro cs h
    exact absurd h (by have := sizeOf_list_pos cs; omega)
  | succ N ih =>
    intro cs hcs env lroot rroot op hop
    cases cs with
    | nil => simp [walkChildren] at hop
    | cons c rest =>
      rw [show walkChildren env lroot rroot (c :: rest) =
          nodeWalk env lroot rroot c ++ walkChildren env lroot rroot rest
        from rfl] at hop
      rcases List.mem_append.mp hop with h1 | h1
      · cases c with
        | file n => simp [nodeWalk] at h1
        | dir n cs' =>
          rw [nodeWalk_dir] at h1
          unfold dirBody at h1
          rcases List.mem_append.mp h1 with h2 | h2
          · obtain ⟨c', _, hdata⟩ := mem_tupleSteps env (lroot ++ "/" ++ n)
              (rroot ++ "/" ++ n) cs' op h2
            refine ⟨n, cs', by simp, (nameOf c').data, ?_⟩
            rw [hdata, data_join]
            simp
          · have hsz : sizeOf cs' ≤ N := by
              have : sizeOf cs' < sizeOf (LNode.dir n cs' :: rest) := by
                simp_arith
              omega
            obtain ⟨m, cs'', _, w', hdata⟩ := ih cs' hsz env (lroot ++ "/" ++ n)
              (rroot ++ "/" ++ n) op h2
            refine ⟨n, cs', by simp, m.data ++ '/' :: w', ?_⟩
            rw [hdata, data_join]
            simp
      · have hsz : sizeOf rest ≤ N := by
          have : sizeOf rest < sizeOf (c :: rest) := by simp_arith
          omega
        obtain ⟨n, cs', hmem, w, hdata⟩ := ih rest hsz env lroot rroot op h1
        exact ⟨n, cs', by simp [hmem], w, hdata⟩

/-- Main ordering lemma for the `os.walk` upload steps: inside the body
of a directory, every recorded directory's `mkdir_remote` precedes all
steps whose destination lies inside it. -/
theorem dirBody_guard :
    ∀ (N : Nat) (cs : List LNode), sizeOf cs ≤ N →
      ∀ (env : FEnv) (lroot rroot : String), validList cs = true →
        ∀ pD ∈ dirPathsUnder rroot cs,
          mkdirStep pD ∈ dirBody env lroot rroot cs ∧
          guardedB pD (dirBody env lroot rroot cs) = true := by
  intro N
  induction N with
  | zero =>
    intro cs h
    exact absurd h (by have := sizeOf_list_pos cs; omega)
  | succ N ih =>
    intro cs hcs env lroot rroot hvalid pD hpD
    obtain ⟨n, cs', hmem, hc⟩ := dirPaths_mem_cases cs rroot pD hpD
    have hvn : validNode (LNode.dir n cs') = true := validList_mem cs hvalid _ hmem
    obtain ⟨hok_n, hvalid'⟩ := validNode_dir n cs' hvn
    have hn_noslash : '/' ∉ n.data := okName_no_slash n hok_n
    rcases hc with rfl | hdeep
    · constructor
      · exact List.mem_append_left _
          (mkdirStep_mem_tupleSteps env lroot rroot n cs' cs hmem)
      · unfold dirBody
        apply guardedB_append_right (rroot ++ "/" ++ n)
          (tupleSteps env lroot rroot cs) ?_ ?_
        · apply guardedB_of_all_safe
          intro a ha
          right
          obtain ⟨c₁, hc₁, hdata⟩ := mem_tupleSteps env lroot rroot cs a ha
          have hm_noslash : '/' ∉ (nameOf c₁).data :=
            okName_no_slash _ (validNode_okName c₁ (validList_mem cs hvalid c₁ hc₁))
          intro hin
          unfold isInside at hin
          rw [hdata, data_join] at hin
          exact not_inside_child_level rroot.data n.data [] (nameOf c₁).data
            hm_noslash (by simpa using hin)
        · exact mkdirStep_mem_tupleSteps env lroot rroot n cs' cs hmem
    · have hsz' : sizeOf cs' ≤ N := by
        have := sizeOf_children_lt_of_mem n cs' cs hmem
        omega
      obtain ⟨hmemIH, hguardIH⟩ := ih cs' hsz' env (lroot ++ "/" ++ n)
        (rroot ++ "/" ++ n) hvalid' pD hdeep
      obtain ⟨m0, cs0, _, τ₀, hpdata0, _⟩ := dirPaths_shape (sizeOf cs') cs'
        le_rfl (rroot ++ "/" ++ n) pD hdeep
      have hpdata : pD.data =
          rroot.data ++ '/' :: (n.data ++ ('/' :: (m0.data ++ τ₀))) := by
        rw [hpdata0, data_join]
        simp
      obtain ⟨A, B, hAB⟩ := List.append_of_mem hmem
      subst hAB
      have hnA : n ∉ A.map nameOf := by
        have hnodup := validList_names_nodup _ hvalid
        rw [List.map_append, List.map_cons] at hnodup
        have : nameOf (LNode.dir n cs') = n := rfl
        rw [this] at hnodup
        have h2 := List.nodup_middle.mp hnodup
        have h3 := (List.nodup_cons.mp h2).1
        intro hn
        exact h3 (List.mem_append_left _ hn)
      have hplan_eq : dirBody env lroot rroot (A ++ LNode.dir n cs' :: B) =
          (tupleSteps env lroot rroot (A ++ LNode.dir n cs' :: B) ++
            walkChildren env lroot rroot A) ++
          (dirBody env (lroot ++ "/" ++ n) (rroot ++ "/" ++ n) cs' ++
            walkChildren env lroot rroot B) := by
        unfold dirBody
        rw [walkChildren_append]
        rw [show walkChildren env lroot rroot (LNode.dir n cs' :: B) =
            nodeWalk env lroot rroot (LNode.dir n cs') ++
              walkChildren env lroot rroot B from rfl]
        rw [nodeWalk_dir]
        unfold dirBody
        simp [List.append_assoc]
      have hsafe : ∀ a ∈ tupleSteps env lroot rroot (A ++ LNode.dir n cs' :: B) ++
          walkChildren env lroot rroot A, ¬ isInside pD a.dst := by
        intro a ha
        rcases List.mem_append.mp ha with h1 | h1
        · obtain ⟨c₁, hc₁, hdata⟩ := mem_tupleSteps _ _ _ _ a h1
          have hm_noslash : '/' ∉ (nameOf c₁).data :=
            okName_no_slash _ (validNode_okName c₁ (validList_mem _ hvalid c₁ hc₁))
          intro hin
          unfold isInside at hin
          rw [hdata, hpdata] at hin
          exact not_inside_child_level rroot.data n.data
            ('/' :: (m0.data ++ τ₀)) (nameOf c₁).data hm_noslash hin
        · obtain ⟨m, cs_m, hmm_mem, w, hdata⟩ := walkChildren_loc (sizeOf A) A
            le_rfl env lroot rroot a h1
          have hv_m : validNode (LNode.dir m cs_m) = true :=
            validList_mem _ hvalid _ (by simp [hmm_mem])
          have hm_noslash : '/' ∉ m.data :=
            okName_no_slash m (validNode_dir _ _ hv_m).1
          have hnm : n.data ≠ m.data := by
            intro he
            apply hnA
            have : n = m := by
              cases n
              cases m
              simp_all
            rw [this]
            exact List.mem_map.mpr ⟨LNode.dir m cs_m, hmm_mem, rfl⟩
          intro hin
          unfold isInside at hin
          rw [hdata, hpdata] at hin
          exact not_inside_other_sibling rroot.data n.data
            ('/' :: (m0.data ++ τ₀)) m.data w hn_noslash hm_noslash hnm
            (Or.inr ⟨_, rfl⟩) hin
      refine ⟨?_, ?_⟩
      · rw [hplan_eq]
        exact List.mem_append_right _ (List.mem_append_left _ hmemIH)
      · rw [hplan_eq]
        exact guardedB_append_of_safe pD _ _ hsafe
          (guardedB_append_right pD _ hguardIH hmemIH _)

/-- Every step the conflict loop prepends before proceeding (the
overwrite `delete`) targets the surviving destination itself. -/
theorem resolveLoop_proceed_dst :
    ∀ (res : List String) (env : FEnv) (dstDir : String)
      (ren : List (Option String)) (calls : Nat) (dst : String)
      (pre : List PlannedOp) (d : String) (p' : Option String)
      (r' : List String) (n' : List (Option String)) (c' : Nat),
      resolveLoop env dstDir res ren calls dst =
        ConflictOut.proceed pre d p' r' n' c' →
      ∀ a ∈ pre, a.dst = d := by
  intro res
  induction res with
  | nil =>
    intro env dstDir ren calls dst pre d p' r' n' c'
    simp only [resolveLoop]
    by_cases hex : env.pexists dst = true
    · rw [if_pos hex]; simp
    · rw [if_neg hex]
      intro h
      simp only [ConflictOut.proceed.injEq] at h
      intro a ha
      rw [← h.1] at ha
      simp at ha
  | cons action res' ih =>
    intro env dstDir ren calls dst pre d p' r' n' c'
    simp only [resolveLoop]
    by_cases hex : env.pexists dst = true
    · rw [if_pos hex]
      by_cases hc : stripAll action = "cancel"
      · rw [if_pos hc]; simp
      · rw [if_neg hc]
        by_cases hs : stripAll action = "skip"
        · rw [if_pos hs]; simp
        · rw [if_neg hs]
          by_cases hr : stripAll action = "rename"
          · rw [if_pos hr]
            cases ren with
            | nil => simp
            | cons r0 ren' =>
              cases r0 with
              | none => simp
              | some nm =>
                cases hall : endsAll action with
                | true =>
                  cases hsl : stickyRenameLoop env dstDir ren'
                      (rstripSlash dstDir ++ "/" ++ nm) with
                  | mk o ren2 =>
                    cases o with
                    | none => simp [hall, hsl]
                    | some d2 =>
                      simp only [hall, hsl, reduceIte]
                      intro h
                      simp only [ConflictOut.proceed.injEq] at h
                      intro a ha
                      rw [← h.1] at ha
                      simp at ha
                | false =>
                  simp only [hall, Bool.false_eq_true, reduceIte]
                  exact ih env dstDir ren' (calls + 1)
                    (rstripSlash dstDir ++ "/" ++ nm) pre d p' r' n' c'
          · rw [if_neg hr]
            by_cases ho : stripAll action = "overwrite"
            · rw [if_pos ho]
              intro h
              simp only [ConflictOut.proceed.injEq] at h
              intro a ha
              rw [← h.1] at ha
              simp only [List.mem_singleton] at ha
              rw [ha, ← h.2.1]
            · rw [if_neg ho]
              intro h
              simp only [ConflictOut.proceed.injEq] at h
              intro a ha
              rw [← h.1] at ha
              simp at ha
    · rw [if_neg hex]
      intro h
      simp only [ConflictOut.proceed.injEq] at h
      intro a ha
      rw [← h.1] at ha
      simp at ha

theorem conflictProbe_proceed_dst (env : FEnv) (dstDir : String)
    (policy : Option String) (res : List String) (ren : List (Option String))
    (calls : Nat) (dst : String) (pre : List PlannedOp) (d : String)
    (p' : Option String) (r' : List String) (n' : List (Option String))
    (c' : Nat)
    (h : conflictProbe env dstDir policy res ren calls dst =
      ConflictOut.proceed pre d p' r' n' c') :
    ∀ a ∈ pre, a.dst = d := by
  revert h
  cases policy with
  | none =>
    exact resolveLoop_proceed_dst res env dstDir ren calls dst pre d p' r' n' c'
  | some a =>
    simp only [conflictProbe]
    by_cases ha : a = "rename"
    · rw [if_pos ha]
      cases hsl : stickyRenameLoop env dstDir ren dst with
      | mk o ren2 =>
        cases o with
        | none => simp
        | some d2 =>
          intro h
          simp only [ConflictOut.proceed.injEq] at h
          intro a' ha'
          rw [← h.1] at ha'
          simp at ha'
    · rw [if_neg ha]
      by_cases hex : env.pexists dst = true
      · rw [if_pos hex]
        by_cases hc : a = "cancel"
        · rw [if_pos hc]; simp
        · rw [if_neg hc]
          by_cases hs : a = "skip"
          · rw [if_pos hs]; simp
          · rw [if_neg hs]
            by_cases ho : a = "overwrite"
            · rw [if_pos ho]
              intro h
              simp only [ConflictOut.proceed.injEq] at h
              intro a' ha'
              rw [← h.1] at ha'
              simp only [List.mem_singleton] at ha'
              rw [ha', ← h.2.1]
            · rw [if_neg ho]
              intro h
              simp only [ConflictOut.proceed.injEq] at h
              intro a' ha'
              rw [← h.1] at ha'
              simp at ha'
      · rw [if_neg hex]
        intro h
        simp only [ConflictOut.proceed.injEq] at h
        intro a' ha'
        rw [← h.1] at ha'
        simp at ha'

/-- C8: for every plan built by a recursive upload of a local directory
tree (a drop of one local directory onto the panel, arbitrary conflict
answers), and every directory `D` of that tree, the `mkdir_remote` step
whose destination is `D`'s remote path appears in the plan strictly
before any step — upload, delete or `mkdir_remote` — whose destination
path lies inside `D`.  The tree's names are real filesystem names
(non-empty, no `'/'`, siblings distinct).  A `skip` answer for the root
yields the empty plan (nothing uploaded); otherwise the surviving
remote base `rb` roots the tree and the guarantee covers `rb` and every
directory below it. -/
theorem upload_mkdir_before_inside (env : FEnv) (res : List String)
    (ren : List (Option String)) (destDir lp : String) (cs : List LNode)
    (hvalid : validList cs = true) (plan : List PlannedOp)
    (hplan : uploadRoots env destDir none res ren [(lp, some cs)] = some plan) :
    plan = [] ∨
    ∃ rb, ∀ pD ∈ rb :: dirPathsUnder rb cs,
      mkdirStep pD ∈ plan ∧ guardedB pD plan = true := by
  revert hplan
  simp only [uploadRoots]
  cases hpr : conflictProbe env (normalizeDest destDir) none res ren 0
      (rstripSlash (normalizeDest destDir) ++ "/" ++
        pyBasename (rstripSlash lp)) with
  | cancelled => simp
  | skipped p' r' n' c' =>
    intro h
    exact Or.inl (Option.some_inj.mp h).symm
  | proceed pre rb p' r' n' c' =>
    intro h
    right
    have hpre_dst := conflictProbe_proceed_dst env (normalizeDest destDir)
      none res ren 0 _ pre rb p' r' n' c' hpr
    have hplan_eq : plan =
        pre ++ ((⟨"mkdir_remote", "", rb, false⟩ : PlannedOp) ::
          dirBody env lp rb cs) := by
      have h2 := (Option.some_inj.mp h).symm
      simpa using h2
    refine ⟨rb, ?_⟩
    intro pD hpD
    rcases List.mem_cons.mp hpD with rfl | hpd2
    · constructor
      · rw [hplan_eq]
        exact List.mem_append_right _ (List.mem_cons_self _ _)
      · rw [hplan_eq]
        apply guardedB_append_of_safe
        · intro a ha
          rw [hpre_dst a ha]
          exact not_inside_of_le_length pD pD le_rfl
        · simp [guardedB, mkdirStep]
    · obtain ⟨hmemD, hguardD⟩ := dirBody_guard (sizeOf cs) cs le_rfl env lp rb
        hvalid pD hpd2
      obtain ⟨n0, cs0, _, τ₀, hpdata, _⟩ := dirPaths_shape (sizeOf cs) cs
        le_rfl rb pD hpd2
      have hlen : rb.data.length ≤ pD.data.length := by
        rw [hpdata]
        simp
      constructor
      · rw [hplan_eq]
        exact List.mem_append_right _ (List.mem_cons_of_mem _ hmemD)
      · rw [hplan_eq]
        apply guardedB_append_of_safe
        · intro a ha
          rw [hpre_dst a ha]
          exact not_inside_of_le_length pD rb hlen
        · by_cases hmk :
            (⟨"mkdir_remote", "", rb, false⟩ : PlannedOp) = mkdirStep pD
          · simp [guardedB, hmk]
          · simp only [guardedB, if_neg hmk, Bool.and_eq_true,
              decide_eq_true_eq]
            exact ⟨not_inside_of_le_length pD rb hlen, hguardD⟩

/-- Witness for `upload_mkdir_before_inside`: dropping the local
directory `/l/d` (a file `f` and a subdirectory `e` containing `g`)
into `/t` without conflicts. -/
theorem upload_mkdir_before_inside_witness :
    validList [LNode.file "f", LNode.dir "e" [LNode.file "g"]] = true ∧
    ([(⟨"mkdir_remote", "", "/t/d", false⟩ : PlannedOp),
      ⟨"mkdir_remote", "", "/t/d/e", false⟩,
      ⟨"upload", "/l/d/f", "/t/d/f", false⟩,
      ⟨"upload", "/l/d/e/g", "/t/d/e/g", false⟩] = [] ∨
    ∃ rb, ∀ pD ∈ rb :: dirPathsUnder rb
        [LNode.file "f", LNode.dir "e" [LNode.file "g"]],
      mkdirStep pD ∈
        [(⟨"mkdir_remote", "", "/t/d", false⟩ : PlannedOp),
         ⟨"mkdir_remote", "", "/t/d/e", false⟩,
         ⟨"upload", "/l/d/f", "/t/d/f", false⟩,
         ⟨"upload", "/l/d/e/g", "/t/d/e/g", false⟩] ∧
      guardedB pD
        [(⟨"mkdir_remote", "", "/t/d", false⟩ : PlannedOp),
         ⟨"mkdir_remote", "", "/t/d/e", false⟩,
         ⟨"upload", "/l/d/f", "/t/d/f", false⟩,
         ⟨"upload", "/l/d/e/g", "/t/d/e/g", false⟩] = true) := by
  refine ⟨by decide, ?_⟩
  exact upload_mkdir_before_inside noConflictEnv [] [] "/t" "/l/d"
    [LNode.file "f", LNode.dir "e" [LNode.file "g"]] (by decide) _ (by decide)

end TrubaPanel
